import Mathlib

/-!
# Verification of the vault replica synchronization and mutation engine

This file gives a shallow embedding of `GitVaultManager`
(`packages/app/src/services/git-vault-manager.ts`) — the replica
synchronization and mutation-serialization engine of the obsidian-mcp
repository — and settles the frozen claims about it.

Modelling conventions:
* Filesystem paths are lists of segments (`FPath`); `resolvePath` embeds
  Node's `path.join(root, rel)` including `..` normalization.
* The working copy, git index and histories are a record `VaultFS`;
  assoc lists keyed by `FPath` play the role of the directory tree.
* Network and filesystem actions are recorded as events (`Ev`), so that
  claims about "which operations run" become statements about traces.
* `simple-git` steps (`fetch`, `reset --hard`, `clean -fdx`, `clone`,
  `commit`, `push`) are modelled at the granularity the source uses them;
  fallible steps take explicit outcome oracles (`Nat → Bool` for push
  attempts, an outcome record for sync steps).
* Concurrency in the source is cooperative async (interleavings at each
  `await`).  Concurrent executions are modelled as interleavings of the
  per-call operation sequences; `GitVaultManager` has a single field, the
  immutable `config`, so a call's own operation sequence does not depend
  on which other calls are in flight.
-/

namespace ObsidianVault

/-- The `VaultConfig` record of `git-vault-manager.ts`: remote repo URL,
branch, PAT credential and local working-copy path. -/
structure VaultConfig where
  repoUrl : String
  branch : String
  githubPat : String
  vaultPath : String
  deriving DecidableEq

/-- A filesystem path as a list of segments (absolute, root implicit). -/
abbrev FPath := List String

/-- Split a character list at a separator character, accumulating the
current segment (reversed).  Behaves like `String.splitOn` with a
one-character separator. -/
def splitCharAux (sep : Char) : List Char → List Char → List String
  | [], cur => [String.mk cur.reverse]
  | c :: rest, cur =>
    if c = sep then String.mk cur.reverse :: splitCharAux sep rest []
    else splitCharAux sep rest (c :: cur)

/-- `s.splitOn sep` for a one-character separator. -/
def splitChar (sep : Char) (s : String) : List String :=
  splitCharAux sep s.data []

/-- Split a path string on `/`, dropping empty and `.` segments, as the
segment decomposition underlying Node's `path.join`. -/
def splitPath (s : String) : FPath :=
  (splitChar '/' s).filter (fun seg => !(seg == "" || seg == "."))

/-- Normalize a segment list by resolving `..` against the segments to its
left (the base is absolute, so excess `..` at the root is dropped), as
Node's `path.join` normalization does. -/
def normSegs (segs : List String) : FPath :=
  segs.foldl (fun acc seg => if seg = ".." then acc.dropLast else acc ++ [seg]) []

/-- `path.join(config.vaultPath, rel)` as used by every facade operation:
join then normalize.  There is no containment check in the source. -/
def resolvePath (cfg : VaultConfig) (rel : String) : FPath :=
  normSegs (splitPath cfg.vaultPath ++ splitPath rel)

/-- Observable operations of the engine: git/network steps, git index
steps, and local filesystem steps. -/
inductive Ev where
  | setRemoteUrl
  | fetchOp (remote branch : String)
  | resetHard (ref : String)
  | cleanFdx
  | cloneOp (branch : String)
  | rmDir
  | addOp (paths : List String)
  | statusOp
  | commitOp (message : String)
  | pushOp
  | delayOp (ms : Nat)
  | fsRead (p : FPath)
  | fsWrite (p : FPath)
  | fsMkdir (p : FPath)
  | fsUnlink (p : FPath)
  | fsRename (src dst : FPath)
  | fsStat (p : FPath)
  deriving DecidableEq

/-- Assoc-list lookup (the file tree: path to content). -/
def lookupA (l : List (FPath × String)) (k : FPath) : Option String :=
  match l with
  | [] => none
  | (k', v) :: t => if k' = k then some v else lookupA t k

/-- Remove a path from the tree (`fs.unlink` / the erased side of a
rename); paths are unique keys, so all matching entries go. -/
def eraseA (l : List (FPath × String)) (k : FPath) : List (FPath × String) :=
  l.filter (fun kv => !(kv.1 == k))

/-- Write a path (`fs.writeFile` / the inserted side of a rename):
replace in place if present, else append. -/
def insertA (l : List (FPath × String)) (k : FPath) (v : String) : List (FPath × String) :=
  match l with
  | [] => [(k, v)]
  | (k', v') :: t => if k' = k then (k, v) :: t else (k', v') :: insertA t k v

/-- The keys of a tree. -/
def keysA (l : List (FPath × String)) : List FPath :=
  l.map (fun kv => kv.1)

/-- The paths on which the working tree `files` differs from the last
committed tree `head`: what `git status` reports (staged or not, git
status lists every difference from HEAD at file granularity). -/
def changedPaths (files head : List (FPath × String)) : List FPath :=
  ((keysA files) ++ (keysA head)).dedup.filter (fun p => decide (lookupA files p ≠ lookupA head p))

/-- The local replica plus its git state.
`files`/`dirs`: the working tree; `head`: the tree of the last local
commit; `commits`: the local history (message and committed paths);
`remote`: the history the remote has (updated by a successful push). -/
structure VaultFS where
  files : List (FPath × String)
  dirs : List FPath
  head : List (FPath × String)
  commits : List (String × List FPath)
  remote : List (String × List FPath)
  deriving DecidableEq

/-- Structured outcomes of facade calls (the source throws `Error`s with
these shapes; note there is no path-containment error anywhere). -/
inductive VErr where
  | pushFailed (attempts : Nat)
  | readFailed (path : String)
  | deleteFailed (path : String)
  | renameFailed (src dst : String)
  deriving DecidableEq

/-- The delay before retry `attempt + 1`:
`Math.pow(2, attempt) * 1000` in `pushWithRetry`. -/
def pushDelayMs (attempt : Nat) : Nat := 2 ^ attempt * 1000

/-- The loop body of `pushWithRetry`, by remaining fuel
(`maxAttempts - attempt + 1`): reassert the remote URL, push; on success
stop, on failure at the last attempt fail, otherwise delay exponentially
and retry.  `ok attempt` is the outcome of push attempt `attempt`. -/
def pushAttemptsAux (ok : Nat → Bool) (maxAttempts : Nat) : Nat → Nat → Bool × List Ev
  | _, 0 => (false, [])
  | attempt, fuel + 1 =>
    if ok attempt then (true, [Ev.setRemoteUrl, Ev.pushOp])
    else if attempt = maxAttempts then (false, [Ev.setRemoteUrl, Ev.pushOp])
    else
      let rest := pushAttemptsAux ok maxAttempts (attempt + 1) fuel
      (rest.1, Ev.setRemoteUrl :: Ev.pushOp :: Ev.delayOp (pushDelayMs attempt) :: rest.2)

/-- `GitVaultManager.pushWithRetry(vaultGit, maxAttempts)`: attempts are
numbered from 1. -/
def pushWithRetry (ok : Nat → Bool) (maxAttempts : Nat) : Bool × List Ev :=
  pushAttemptsAux ok maxAttempts 1 maxAttempts

/-- The paths staged by `commitAndPush`: `git add -A <affected…>` stages
the changes at exactly the given relative paths (all changes when the
list is empty, `git add -A`). -/
def stagedFiles (cfg : VaultConfig) (affected : List String) (fs : VaultFS) : List FPath :=
  let changed := changedPaths fs.files fs.head
  if affected.isEmpty then changed
  else (affected.map (resolvePath cfg)).filter (fun p => p ∈ changed)

/-- The committed tree after committing the staged paths: each staged
path takes its working-tree content (or is removed if deleted). -/
def applyCommit (files head : List (FPath × String)) (staged : List FPath) : List (FPath × String) :=
  staged.foldl
    (fun h p =>
      match lookupA files p with
      | some c => insertA h p c
      | none => eraseA h p)
    head

/-- `GitVaultManager.commitAndPush(message, affectedFiles)`: stage the
affected paths (or everything), inspect `status`; if no file changed it
is a no-op; otherwise create one commit with the given message and call
`pushWithRetry(vaultGit, 3)`.  A push failure surfaces as an error while
the local commit is kept (nothing is rolled back). -/
def commitAndPush (cfg : VaultConfig) (message : String) (affected : List String)
    (ok : Nat → Bool) (fs : VaultFS) : Except VErr Unit × VaultFS × List Ev :=
  let changed := changedPaths fs.files fs.head
  let stEvs := [Ev.addOp affected, Ev.statusOp]
  if changed.isEmpty then (Except.ok (), fs, stEvs)
  else
    let staged := stagedFiles cfg affected fs
    let head' := applyCommit fs.files fs.head staged
    let commits' := fs.commits ++ [(message, staged)]
    let push := pushWithRetry ok 3
    if push.1 then
      (Except.ok (), { fs with head := head', commits := commits', remote := commits' },
        stEvs ++ [Ev.commitOp message] ++ push.2)
    else
      (Except.error (VErr.pushFailed 3), { fs with head := head', commits := commits' },
        stEvs ++ [Ev.commitOp message] ++ push.2)

/-- The operation sequence of a successful warm sync
(`GitVaultManager.syncVault`, success path): `remote set-url origin`,
`fetch origin <branch>`, `reset --hard origin/<branch>`, `clean -fdx`. -/
def warmSyncOps (cfg : VaultConfig) : List Ev :=
  [Ev.setRemoteUrl, Ev.fetchOp "origin" cfg.branch,
   Ev.resetHard ("origin/" ++ cfg.branch), Ev.cleanFdx]

/-! ## Warm sync and destructive recovery (`syncVault` / `removeVault` / `cloneVault`) -/

/-- The remote branch tip, as the tree of files a fresh clone yields. -/
structure RemoteTip where
  files : List (FPath × String)
  deriving DecidableEq

/-- The working tree produced by `cloneVault` (cold clone, depth 1,
single branch): exactly the remote branch tip. -/
def freshClone (r : RemoteTip) : List (FPath × String) := r.files

/-- Outcomes of the fallible steps of one `syncVault` run: whether the
bounded fetch completed (a timeout counts as `fetchOk = false`), whether
`reset --hard` and `clean -fdx` succeeded, and whether the recovery
`cloneVault` of the catch-branch would succeed. -/
structure SyncOutcome where
  fetchOk : Bool
  resetOk : Bool
  cleanOk : Bool
  cloneOk : Bool
  deriving DecidableEq

/-- `GitVaultManager.syncVault`: set the remote URL, fetch with a bounded
timeout, `reset --hard origin/<branch>`, `clean -fdx`; on any error the
catch branch runs `removeVault` (delete the whole working copy) and then
`cloneVault`.  Result: `some tree` is the resulting working tree (a
successful reset+clean mirrors the remote tip exactly, as does a fresh
clone); `none` means even the recovery clone failed, leaving no usable
replica (the error propagates to the caller). -/
def syncVault (cfg : VaultConfig) (remote : RemoteTip) (_localFiles : List (FPath × String))
    (o : SyncOutcome) : Option (List (FPath × String)) × List Ev :=
  let recover : List Ev → Option (List (FPath × String)) × List Ev := fun pre =>
    if o.cloneOk then (some (freshClone remote), pre ++ [Ev.rmDir, Ev.cloneOp cfg.branch])
    else (none, pre ++ [Ev.rmDir, Ev.cloneOp cfg.branch])
  if o.fetchOk then
    if o.resetOk then
      if o.cleanOk then (some remote.files, warmSyncOps cfg)
      else recover (warmSyncOps cfg)
    else recover [Ev.setRemoteUrl, Ev.fetchOp "origin" cfg.branch,
      Ev.resetHard ("origin/" ++ cfg.branch)]
  else recover [Ev.setRemoteUrl, Ev.fetchOp "origin" cfg.branch]

/-! ## The facade operations

Each facade call first runs `initialize()` (clone when the path is
absent, warm sync otherwise).  The operation bodies below embed the warm
path with its sync succeeding — `warmSyncOps` — which also documents
that the sync, network included, runs on *every* call; the claims about
the sync itself are settled against `syncVault` above. -/

/-- `GitVaultManager.readFile(relativePath)`: sync, `path.join`, read.
There is no containment check; a missing file surfaces as a generic
read error. -/
def readFile (cfg : VaultConfig) (fs : VaultFS) (rel : String) :
    Except VErr String × List Ev :=
  let full := resolvePath cfg rel
  let evs := warmSyncOps cfg ++ [Ev.fsRead full]
  match lookupA fs.files full with
  | some c => (Except.ok c, evs)
  | none => (Except.error (VErr.readFailed rel), evs)

/-- All the directories `fs.mkdir(dir, recursive: true)` creates: every
prefix of the target directory path. -/
def ancestors (p : FPath) : List FPath :=
  (List.range p.length).map (fun k => p.take (k + 1))

/-- Add directories that do not exist yet (existing ones unchanged). -/
def addDirs (dirs : List FPath) (new : List FPath) : List FPath :=
  new.foldl (fun acc d => if d ∈ acc then acc else acc ++ [d]) dirs

/-- `GitVaultManager.writeFile(relativePath, content)`: sync, create the
parent directories, write, then
`commitAndPush("Update file: <path>", [path])`. -/
def writeFile (cfg : VaultConfig) (fs : VaultFS) (rel content : String)
    (ok : Nat → Bool) : Except VErr Unit × VaultFS × List Ev :=
  let full := resolvePath cfg rel
  let fs1 : VaultFS := { fs with
    dirs := addDirs fs.dirs (ancestors full.dropLast),
    files := insertA fs.files full content }
  let r := commitAndPush cfg ("Update file: " ++ rel) [rel] ok fs1
  (r.1, r.2.1, warmSyncOps cfg ++ [Ev.fsMkdir full.dropLast, Ev.fsWrite full] ++ r.2.2)

/-- `GitVaultManager.deleteFile(relativePath)`: sync, stat (the helper
`getFileStats` runs `initialize()` a second time, hence the doubled sync
prefix), error if the path is a directory or missing, else unlink and
`commitAndPush("Delete file: <path>", [path])`.  The surrounding
try/catch wraps any error — the directory guard, a missing path, or an
exhausted push — into the delete failure surfaced to the caller. -/
def deleteFile (cfg : VaultConfig) (fs : VaultFS) (rel : String)
    (ok : Nat → Bool) : Except VErr Unit × VaultFS × List Ev :=
  let full := resolvePath cfg rel
  let statEvs := warmSyncOps cfg ++ warmSyncOps cfg ++ [Ev.fsStat full]
  if full ∈ fs.dirs then (Except.error (VErr.deleteFailed rel), fs, statEvs)
  else
    match lookupA fs.files full with
    | none => (Except.error (VErr.deleteFailed rel), fs, statEvs)
    | some _ =>
      let fs1 : VaultFS := { fs with files := eraseA fs.files full }
      let r := commitAndPush cfg ("Delete file: " ++ rel) [rel] ok fs1
      (match r.1 with
        | Except.ok _ => Except.ok ()
        | Except.error _ => Except.error (VErr.deleteFailed rel),
       r.2.1, statEvs ++ [Ev.fsUnlink full] ++ r.2.2)

/-- `GitVaultManager.moveFile(sourcePath, destPath)`: sync, create the
destination's parent directories, rename, then commit+push referencing
both paths.  The parent directories are created *before* the rename, and
there is no catch: a failing rename leaves them behind. -/
def moveFile (cfg : VaultConfig) (fs : VaultFS) (src dst : String)
    (ok : Nat → Bool) : Except VErr Unit × VaultFS × List Ev :=
  let fullSrc := resolvePath cfg src
  let fullDst := resolvePath cfg dst
  let dirs' := addDirs fs.dirs (ancestors fullDst.dropLast)
  let preEvs := warmSyncOps cfg ++ [Ev.fsMkdir fullDst.dropLast]
  match lookupA fs.files fullSrc with
  | none =>
    (Except.error (VErr.renameFailed src dst), { fs with dirs := dirs' },
      preEvs ++ [Ev.fsRename fullSrc fullDst])
  | some c =>
    let fs1 : VaultFS := { fs with
      dirs := dirs',
      files := insertA (eraseA fs.files fullSrc) fullDst c }
    let r := commitAndPush cfg ("Move file: " ++ src ++ " → " ++ dst) [src, dst] ok fs1
    (r.1, r.2.1, preEvs ++ [Ev.fsRename fullSrc fullDst] ++ r.2.2)

/-! ## Concurrent calls as interleavings (C1)

`GitVaultManager` keeps no shared mutable state (its only field is the
immutable `config`), so each in-flight call performs its own fixed
operation sequence regardless of scheduling.  A concurrent execution of
several calls is any interleaving of their sequences. -/

/-- The operation sequence of one `readFile` call on an existing replica
whose sync succeeds (the scenario of the repository's concurrency test):
`initialize()` → `syncVault` → `fs.readFile`. -/
def readFileCallOps (cfg : VaultConfig) (rel : String) : List Ev :=
  warmSyncOps cfg ++ [Ev.fsRead (resolvePath cfg rel)]

/-- `Interleaving qs t`: the trace `t` is an interleaving of the queues
`qs` — at each step the scheduler takes the head of some queue. -/
inductive Interleaving : List (List Ev) → List Ev → Prop where
  | done : ∀ qs, (∀ q ∈ qs, q = []) → Interleaving qs []
  | step : ∀ (qs : List (List Ev)) (i : Nat) (x : Ev) (rest : List Ev) (t : List Ev),
      qs.get? i = some (x :: rest) → Interleaving (qs.set i rest) t →
      Interleaving qs (x :: t)

/-! ## Interleaved writers (C2)

The step sequence of one `writeFile` call after its sync, at the
granularity of its `await` points: write the file, `git add -A <path>`,
`git status`, commit when the status reported changes, push.  (`mcommit`
and `mpush` are no-ops when the status was clean, matching the early
return.)  The shared state is the git working tree and index; the two
tasks of the scenario write fresh distinct files, so a write dirties its
path. -/

inductive MStep where
  | mwrite
  | mstage
  | mstatus
  | mcommit
  | mpush
  deriving DecidableEq

/-- One in-flight `writeFile` call: its path, commit message, remaining
step program and what its `status` call saw. -/
structure MTask where
  path : String
  message : String
  prog : List MStep
  saw : Bool
  deriving DecidableEq

/-- The shared git state the interleaved calls race on: dirty working
tree paths, the index, and the commit history. -/
structure MState where
  dirty : List String
  staged : List String
  commits : List (String × List String)
  deriving DecidableEq

/-- The step program of `writeFile` + `commitAndPush`. -/
def writeProg : List MStep :=
  [MStep.mwrite, MStep.mstage, MStep.mstatus, MStep.mcommit, MStep.mpush]

/-- A fresh `writeFile p` task with the message the source uses. -/
def mkWriteTask (p : String) : MTask :=
  ⟨p, "Update file: " ++ p, writeProg, false⟩

/-- Append an element if absent. -/
def insStr (l : List String) (x : String) : List String :=
  if x ∈ l then l else l ++ [x]

/-- Effect of one step of one task on the shared git state:
`mwrite` dirties the task's path; `mstage` (`git add -A <path>`) moves
that single path from dirty to the index; `mstatus` records whether any
change exists (staged or not); `mcommit` commits *everything currently
staged* under the task's message (skipped if the status was clean);
`mpush` transfers history (irrelevant to the commit-mixing claim). -/
def doStep (t : MTask) (st : MState) (s : MStep) : MTask × MState :=
  match s with
  | MStep.mwrite => (t, { st with dirty := insStr st.dirty t.path })
  | MStep.mstage =>
    if t.path ∈ st.dirty then
      (t, { st with dirty := st.dirty.erase t.path, staged := insStr st.staged t.path })
    else (t, st)
  | MStep.mstatus => ({ t with saw := !(st.dirty ++ st.staged).isEmpty }, st)
  | MStep.mcommit =>
    if t.saw then
      (t, { st with commits := st.commits ++ [(t.message, st.staged)], staged := [] })
    else (t, st)
  | MStep.mpush => (t, st)

/-- Run two tasks under a schedule (`true` = first task runs its next
step).  A scheduled task with no remaining steps is skipped.  Returns
both tasks, the final state, and the trace of (task, step) pairs. -/
def run2 : List Bool → MTask → MTask → MState → MTask × MTask × MState × List (Bool × MStep)
  | [], ta, tb, st => (ta, tb, st, [])
  | c :: rest, ta, tb, st =>
    if c then
      match ta.prog with
      | [] => run2 rest ta tb st
      | s :: ss =>
        let r := doStep { ta with prog := ss } st s
        let out := run2 rest r.1 tb r.2
        (out.1, out.2.1, out.2.2.1, (true, s) :: out.2.2.2)
    else
      match tb.prog with
      | [] => run2 rest ta tb st
      | s :: ss =>
        let r := doStep { tb with prog := ss } st s
        let out := run2 rest ta r.1 r.2
        (out.1, out.2.1, out.2.2.1, (false, s) :: out.2.2.2)

/-- The steps one side performed, in order. -/
def taskEvents (side : Bool) (tr : List (Bool × MStep)) : List MStep :=
  (tr.filter (fun e => e.1 == side)).map (fun e => e.2)

/-! ## `listFiles` / `walkDirectory` (C9) -/

/-- The options record of `listFiles`: `includeDirectories` is used
truthily, `fileTypes` may be absent, and `recursive` is three-valued in
the source (`undefined`, `true`, `false`), so it is an `Option Bool`
here — the walk recurses exactly when `options.recursive !== false`. -/
structure ListOptions where
  includeDirectories : Bool
  fileTypes : Option (List String)
  recursive : Option Bool
  deriving DecidableEq

/-- `path.extname(name).substring(1)`: the extension without its dot,
`""` when the basename has no dot or only a leading dot. -/
def extNoDot (name : String) : String :=
  let parts := splitChar '.' name
  if 2 ≤ parts.length ∧ ¬(parts.head? = some "" ∧ parts.length = 2) then parts.getLastD ""
  else ""

mutual

/-- A directory tree entry as `fs.readdir(..., withFileTypes: true)`
presents it. -/
inductive FTree where
  | file : String → FTree
  | dir : String → FTreeList → FTree

/-- The ordered children of a directory. -/
inductive FTreeList where
  | nil : FTreeList
  | cons : FTree → FTreeList → FTreeList

end

mutual

/-- The handling of one entry inside `walkDirectory`'s loop: skip
`.git`/`.obsidian`; for a directory, push it when `includeDirectories`
and recurse unless `recursive` is literally `false`; for a file, apply
the `fileTypes` extension filter and push.  Paths are relative to the
walk's base (`relDir` is the path of the containing directory). -/
def walkEntry (opts : ListOptions) (relDir : List String) : FTree → List (List String)
  | FTree.file name =>
    if name = ".git" ∨ name = ".obsidian" then []
    else
      match opts.fileTypes with
      | some l => if l ≠ [] ∧ extNoDot name ∉ l then [] else [relDir ++ [name]]
      | none => [relDir ++ [name]]
  | FTree.dir name children =>
    if name = ".git" ∨ name = ".obsidian" then []
    else
      (if opts.includeDirectories then [relDir ++ [name]] else []) ++
        (if opts.recursive ≠ some false then walkList opts (relDir ++ [name]) children else [])

/-- `walkDirectory` over a directory's entries, in order. -/
def walkList (opts : ListOptions) (relDir : List String) : FTreeList → List (List String)
  | FTreeList.nil => []
  | FTreeList.cons t ts => walkEntry opts relDir t ++ walkList opts relDir ts

end

/-- The single-level walk `recursive: false` is expected to produce:
same skipping, directory inclusion and extension filtering, but no
descent into subdirectories. -/
def shallowList (opts : ListOptions) (relDir : List String) : FTreeList → List (List String)
  | FTreeList.nil => []
  | FTreeList.cons (FTree.file name) ts =>
    (if name = ".git" ∨ name = ".obsidian" then []
     else
       match opts.fileTypes with
       | some l => if l ≠ [] ∧ extNoDot name ∉ l then [] else [relDir ++ [name]]
       | none => [relDir ++ [name]]) ++ shallowList opts relDir ts
  | FTreeList.cons (FTree.dir name _) ts =>
    (if name = ".git" ∨ name = ".obsidian" then []
     else if opts.includeDirectories then [relDir ++ [name]] else []) ++
      shallowList opts relDir ts

/-! ## Helper lemmas -/

/-- Every run of the retry loop makes at most `fuel` push attempts. -/
theorem pushAttemptsAux_count_le (ok : Nat → Bool) (maxA : Nat) :
    ∀ fuel attempt, ((pushAttemptsAux ok maxA attempt fuel).2).count Ev.pushOp ≤ fuel := by
  intro fuel
  induction fuel with
  | zero => intro attempt; simp [pushAttemptsAux]
  | succ n ih =>
    intro attempt
    by_cases h1 : ok attempt
    · simp [pushAttemptsAux, h1, List.count_cons]
    · by_cases h2 : attempt = maxA
      · simp only [pushAttemptsAux, h1, h2]
        split <;> simp [List.count_cons]
      · have := ih (attempt + 1)
        simp only [pushAttemptsAux, if_neg h2]
        simp only [h1, Bool.false_eq_true, if_false]
        simp [List.count_cons]
        omega

/-- The retry loop always makes at least one push attempt. -/
theorem pushAttemptsAux_mem_push (ok : Nat → Bool) (maxA attempt fuel : Nat)
    (h : 0 < fuel) : Ev.pushOp ∈ (pushAttemptsAux ok maxA attempt fuel).2 := by
  cases fuel with
  | zero => omega
  | succ n =>
    by_cases h1 : ok attempt
    · simp [pushAttemptsAux, h1]
    · by_cases h2 : attempt = maxA
      · simp only [pushAttemptsAux, h1, h2]
        split <;> simp
      · simp [pushAttemptsAux, h1, h2]

/-- First push attempt succeeds: one `set-url`+`push`, no delay. -/
theorem pushWithRetry_first_ok (ok : Nat → Bool) (h1 : ok 1 = true) :
    pushWithRetry ok 3 = (true, [Ev.setRemoteUrl, Ev.pushOp]) := by
  simp [pushWithRetry, pushAttemptsAux, h1]

/-- First attempt fails, second succeeds: a 2000 ms delay in between. -/
theorem pushWithRetry_second_ok (ok : Nat → Bool) (h1 : ok 1 = false) (h2 : ok 2 = true) :
    pushWithRetry ok 3 =
      (true, [Ev.setRemoteUrl, Ev.pushOp, Ev.delayOp 2000, Ev.setRemoteUrl, Ev.pushOp]) := by
  simp [pushWithRetry, pushAttemptsAux, h1, h2, pushDelayMs]

/-- First two attempts fail: the third is the last, its outcome decides
the run; delays were 2000 ms then 4000 ms. -/
theorem pushWithRetry_third (ok : Nat → Bool) (h1 : ok 1 = false) (h2 : ok 2 = false) :
    pushWithRetry ok 3 =
      (ok 3, [Ev.setRemoteUrl, Ev.pushOp, Ev.delayOp 2000,
              Ev.setRemoteUrl, Ev.pushOp, Ev.delayOp 4000,
              Ev.setRemoteUrl, Ev.pushOp]) := by
  cases h3 : ok 3 <;> simp [pushWithRetry, pushAttemptsAux, h1, h2, h3, pushDelayMs]

/-- `commitAndPush` with a clean status is a no-op: same state, no
commit, no push attempt. -/
theorem commitAndPush_noop (cfg : VaultConfig) (msg : String) (aff : List String)
    (ok : Nat → Bool) (fs : VaultFS) (hch : (changedPaths fs.files fs.head).isEmpty = true) :
    commitAndPush cfg msg aff ok fs = (Except.ok (), fs, [Ev.addOp aff, Ev.statusOp]) := by
  simp [commitAndPush, hch]

/-- `commitAndPush` with changes: the trace is stage, status, one
commit, then the push sequence — whatever the push outcome. -/
theorem commitAndPush_trace (cfg : VaultConfig) (msg : String) (aff : List String)
    (ok : Nat → Bool) (fs : VaultFS) (hch : (changedPaths fs.files fs.head).isEmpty = false) :
    (commitAndPush cfg msg aff ok fs).2.2 =
      [Ev.addOp aff, Ev.statusOp, Ev.commitOp msg] ++ (pushWithRetry ok 3).2 := by
  cases h : (pushWithRetry ok 3).1 <;> simp [commitAndPush, hch, h]

/-- `commitAndPush` with changes appends exactly one commit with the
given message, whatever the push outcome. -/
theorem commitAndPush_commits (cfg : VaultConfig) (msg : String) (aff : List String)
    (ok : Nat → Bool) (fs : VaultFS) (hch : (changedPaths fs.files fs.head).isEmpty = false) :
    (commitAndPush cfg msg aff ok fs).2.1.commits =
      fs.commits ++ [(msg, stagedFiles cfg aff fs)] := by
  cases h : (pushWithRetry ok 3).1 <;> simp [commitAndPush, hch, h]

/-- A successful push: the call reports success and the remote history
becomes the local one, new commit included. -/
theorem commitAndPush_push_ok (cfg : VaultConfig) (msg : String) (aff : List String)
    (ok : Nat → Bool) (fs : VaultFS) (hch : (changedPaths fs.files fs.head).isEmpty = false)
    (hp : (pushWithRetry ok 3).1 = true) :
    (commitAndPush cfg msg aff ok fs).1 = Except.ok () ∧
    (commitAndPush cfg msg aff ok fs).2.1.remote =
      fs.commits ++ [(msg, stagedFiles cfg aff fs)] := by
  constructor <;> simp [commitAndPush, hch, hp]

/-- An exhausted push: the call surfaces the push failure; the remote is
left as it was. -/
theorem commitAndPush_push_fail (cfg : VaultConfig) (msg : String) (aff : List String)
    (ok : Nat → Bool) (fs : VaultFS) (hch : (changedPaths fs.files fs.head).isEmpty = false)
    (hp : (pushWithRetry ok 3).1 = false) :
    (commitAndPush cfg msg aff ok fs).1 = Except.error (VErr.pushFailed 3) ∧
    (commitAndPush cfg msg aff ok fs).2.1.remote = fs.remote := by
  constructor <;> simp [commitAndPush, hch, hp]

/-- One block of a failed retry round: reassert URL, push, delay. -/
def retryBlock (n : Nat) : List Ev :=
  [Ev.setRemoteUrl, Ev.pushOp, Ev.delayOp (pushDelayMs n)]

/-- The event trace of a push that fails `k` times and then succeeds:
`k` failed rounds with exponentially growing delays, then the successful
`set-url`+`push`. -/
def transientTrace (k : Nat) : List Ev :=
  ((List.range k).map (fun n => retryBlock (n + 1))).flatten ++ [Ev.setRemoteUrl, Ev.pushOp]

/-! ## Concrete fixtures used by the witnesses -/

/-- A concrete configuration (the shape the servers build from env). -/
def cfgW : VaultConfig :=
  ⟨"https://github.com/example/vault.git", "main", "token", "/vault"⟩

/-- A replica whose working tree differs from its last commit. -/
def fsDirty : VaultFS :=
  ⟨[(["vault", "a.md"], "new")], [["vault"]], [(["vault", "a.md"], "old")], [], []⟩

/-- A replica whose working tree matches its last commit exactly. -/
def fsClean : VaultFS :=
  ⟨[(["vault", "a.md"], "same")], [["vault"]], [(["vault", "a.md"], "same")], [], []⟩

/-! ## C10 — concrete retry schedule -/

/-- C10: every `commitAndPush` that reaches the push step performs at
most 3 push attempts (the hard-coded `pushWithRetry(vaultGit, 3)` call),
and the backoff delay after failed attempt `n` is `2^n * 1000` ms —
2000 ms after the first failure, 4000 ms after the second; the push
phase of `commitAndPush` is exactly `pushWithRetry` with the literal 3
(no configuration knob exists: `VaultConfig` carries no retry field). -/
theorem push_retry_schedule (ok : Nat → Bool) (cfg : VaultConfig) (msg : String)
    (aff : List String) (fs : VaultFS) :
    ((pushWithRetry ok 3).2).count Ev.pushOp ≤ 3 ∧
    pushDelayMs 1 = 2000 ∧ pushDelayMs 2 = 4000 ∧
    (ok 1 = false → ∃ rest, (pushWithRetry ok 3).2
        = [Ev.setRemoteUrl, Ev.pushOp, Ev.delayOp 2000] ++ rest) ∧
    (ok 1 = false → ok 2 = false → (pushWithRetry ok 3).2
        = [Ev.setRemoteUrl, Ev.pushOp, Ev.delayOp 2000,
           Ev.setRemoteUrl, Ev.pushOp, Ev.delayOp 4000,
           Ev.setRemoteUrl, Ev.pushOp]) ∧
    ((changedPaths fs.files fs.head).isEmpty = false →
      (commitAndPush cfg msg aff ok fs).2.2
        = [Ev.addOp aff, Ev.statusOp, Ev.commitOp msg] ++ (pushWithRetry ok 3).2) :=
  ⟨pushAttemptsAux_count_le ok 3 3 1,
   by simp [pushDelayMs],
   by simp [pushDelayMs],
   fun h1 =>
     ⟨(pushAttemptsAux ok 3 2 2).2, by simp [pushWithRetry, pushAttemptsAux, h1, pushDelayMs]⟩,
   fun h1 h2 => by rw [pushWithRetry_third ok h1 h2],
   fun hch => commitAndPush_trace cfg msg aff ok fs hch⟩

/-- Witness for C10 at the all-fail oracle and a dirty replica. -/
theorem push_retry_schedule_witness :
    ((pushWithRetry (fun i => decide (i = 4)) 3).2).count Ev.pushOp ≤ 3 ∧
    (pushWithRetry (fun i => decide (i = 4)) 3).2
      = [Ev.setRemoteUrl, Ev.pushOp, Ev.delayOp 2000,
         Ev.setRemoteUrl, Ev.pushOp, Ev.delayOp 4000,
         Ev.setRemoteUrl, Ev.pushOp] ∧
    (commitAndPush cfgW "m" ["a.md"] (fun i => decide (i = 4)) fsDirty).2.2
      = [Ev.addOp ["a.md"], Ev.statusOp, Ev.commitOp "m"]
        ++ (pushWithRetry (fun i => decide (i = 4)) 3).2 := by
  have h := push_retry_schedule (fun i => decide (i = 4)) cfgW "m" ["a.md"] fsDirty
  exact ⟨h.1, h.2.2.2.2.1 rfl rfl, h.2.2.2.2.2 (by decide)⟩

/-! ## C4 — push retry convergence -/

/-- C4: a push failing transiently `k < 3` times and then succeeding
makes the mutation succeed, with the remote URL reasserted before every
attempt and exponentially growing delays (`transientTrace k`); when all
3 attempts fail, the mutation surfaces the push failure while the local
commit is retained, and any later mutation whose push succeeds carries
every retained local commit to the remote. -/
theorem push_retry_convergence (k : Nat) (ok okAll : Nat → Bool) (cfg : VaultConfig)
    (msg : String) (aff : List String) (fs : VaultFS)
    (hk : k < 3)
    (hfail : ∀ i, 1 ≤ i → i ≤ k → ok i = false)
    (hsucc : ok (k + 1) = true)
    (hall : ∀ i, 1 ≤ i → i ≤ 3 → okAll i = false)
    (hch : (changedPaths fs.files fs.head).isEmpty = false) :
    (pushWithRetry ok 3).1 = true ∧
    (pushWithRetry ok 3).2 = transientTrace k ∧
    (commitAndPush cfg msg aff ok fs).1 = Except.ok () ∧
    (commitAndPush cfg msg aff okAll fs).1 = Except.error (VErr.pushFailed 3) ∧
    (commitAndPush cfg msg aff okAll fs).2.1.commits =
      fs.commits ++ [(msg, stagedFiles cfg aff fs)] ∧
    (∀ (fs' : VaultFS) (okN : Nat → Bool) (msg2 : String) (aff2 : List String),
      (msg, stagedFiles cfg aff fs) ∈ fs'.commits →
      (changedPaths fs'.files fs'.head).isEmpty = false →
      okN 1 = true →
      (msg, stagedFiles cfg aff fs) ∈ (commitAndPush cfg msg2 aff2 okN fs').2.1.remote) := by
  have hpush : pushWithRetry ok 3 = (true, transientTrace k) := by
    interval_cases k
    · rw [pushWithRetry_first_ok ok hsucc]
      simp [transientTrace]
    · have h1 : ok 1 = false := hfail 1 (by omega) (by omega)
      rw [pushWithRetry_second_ok ok h1 hsucc]
      decide
    · have h1 : ok 1 = false := hfail 1 (by omega) (by omega)
      have h2 : ok 2 = false := hfail 2 (by omega) (by omega)
      rw [pushWithRetry_third ok h1 h2, hsucc]
      decide
  have hAll : (pushWithRetry okAll 3).1 = false := by
    have h1 : okAll 1 = false := hall 1 (by omega) (by omega)
    have h2 : okAll 2 = false := hall 2 (by omega) (by omega)
    have h3 : okAll 3 = false := hall 3 (by omega) (by omega)
    rw [pushWithRetry_third okAll h1 h2, h3]
  refine ⟨by rw [hpush], by rw [hpush],
    (commitAndPush_push_ok cfg msg aff ok fs hch (by rw [hpush])).1,
    (commitAndPush_push_fail cfg msg aff okAll fs hch hAll).1,
    commitAndPush_commits cfg msg aff okAll fs hch,
    ?_⟩
  intro fs' okN msg2 aff2 hmem hch' hok1
  have hp : (pushWithRetry okN 3).1 = true := by
    rw [pushWithRetry_first_ok okN hok1]
  rw [(commitAndPush_push_ok cfg msg2 aff2 okN fs' hch' hp).2]
  exact List.mem_append_left _ hmem

/-- Witness for C4: `k = 1` transient failure, an all-fail oracle, the
dirty replica, and a carry-forward step on the retained commit. -/
theorem push_retry_convergence_witness :
    (pushWithRetry (fun i => decide (i = 2)) 3).1 = true ∧
    (commitAndPush cfgW "m" ["a.md"] (fun _ => false) fsDirty).1
      = Except.error (VErr.pushFailed 3) ∧
    ("m", stagedFiles cfgW ["a.md"] fsDirty) ∈
      (commitAndPush cfgW "m2" []
        (fun _ => true)
        (let fs2 := (commitAndPush cfgW "m" ["a.md"] (fun _ => false) fsDirty).2.1
         { fs2 with files := insertA fs2.files ["vault", "b.md"] "x" })).2.1.remote := by
  have h := push_retry_convergence 1 (fun i => decide (i = 2)) (fun _ => false)
    cfgW "m" ["a.md"] fsDirty (by omega)
    (by intro i hi1 hi2; have hi : i = 1 := Nat.le_antisymm hi2 hi1; subst hi; rfl)
    rfl
    (by intro i hi1 hi2; rfl)
    (by decide)
  refine ⟨h.1, h.2.2.2.1, ?_⟩
  refine h.2.2.2.2.2 _ (fun _ => true) "m2" [] ?_ ?_ rfl
  · show ("m", stagedFiles cfgW ["a.md"] fsDirty) ∈
      (commitAndPush cfgW "m" ["a.md"] (fun _ => false) fsDirty).2.1.commits
    rw [h.2.2.2.2.1]
    exact List.mem_append_right _ (List.mem_singleton_self _)
  · decide

/-! ## C5 — no-op commit idempotence -/

/-- Rewriting a key with the value it already has leaves the tree
unchanged (writing identical content changes nothing). -/
theorem insertA_self : ∀ (l : List (FPath × String)) (k : FPath) (v : String),
    lookupA l k = some v → insertA l k v = l := by
  intro l k v h
  induction l with
  | nil => simp [lookupA] at h
  | cons kv t ih =>
    obtain ⟨k', v'⟩ := kv
    by_cases hk : k' = k
    · simp [lookupA, hk] at h
      simp [insertA, hk, h]
    · simp [lookupA, hk] at h
      simp [insertA, hk, ih h]

/-- C5: when, after staging, the status reports no changed file,
`commitAndPush` is a no-op — same state, no commit, no push attempt;
otherwise it appends exactly one commit carrying the given message and
then attempts a push.  In particular `writeFile` with content identical
to the current content of a clean replica creates no commit and no push
attempt. -/
theorem commitAndPush_noop_idempotent (cfg : VaultConfig) (msg : String) (aff : List String)
    (ok : Nat → Bool) (fs : VaultFS) :
    ((changedPaths fs.files fs.head).isEmpty = true →
      commitAndPush cfg msg aff ok fs = (Except.ok (), fs, [Ev.addOp aff, Ev.statusOp])) ∧
    ((changedPaths fs.files fs.head).isEmpty = false →
      (commitAndPush cfg msg aff ok fs).2.1.commits =
        fs.commits ++ [(msg, stagedFiles cfg aff fs)] ∧
      Ev.commitOp msg ∈ (commitAndPush cfg msg aff ok fs).2.2 ∧
      Ev.pushOp ∈ (commitAndPush cfg msg aff ok fs).2.2) ∧
    (∀ rel c, lookupA fs.files (resolvePath cfg rel) = some c →
      (changedPaths fs.files fs.head).isEmpty = true →
      (writeFile cfg fs rel c ok).1 = Except.ok () ∧
      (writeFile cfg fs rel c ok).2.1.commits = fs.commits ∧
      Ev.pushOp ∉ (writeFile cfg fs rel c ok).2.2 ∧
      ∀ m, Ev.commitOp m ∉ (writeFile cfg fs rel c ok).2.2) := by
  refine ⟨commitAndPush_noop cfg msg aff ok fs, ?_, ?_⟩
  · intro hch
    refine ⟨commitAndPush_commits cfg msg aff ok fs hch, ?_, ?_⟩
    · rw [commitAndPush_trace cfg msg aff ok fs hch]
      simp
    · rw [commitAndPush_trace cfg msg aff ok fs hch]
      exact List.mem_append_right _ (pushAttemptsAux_mem_push ok 3 1 3 (by omega))
  · intro rel c hlook hch
    have hf : insertA fs.files (resolvePath cfg rel) c = fs.files :=
      insertA_self fs.files (resolvePath cfg rel) c hlook
    simp only [writeFile, hf]
    rw [commitAndPush_noop cfg ("Update file: " ++ rel) [rel] ok _ (by simpa using hch)]
    refine ⟨rfl, rfl, ?_, ?_⟩
    · simp [warmSyncOps]
    · intro m
      simp [warmSyncOps]

/-- Witness for C5 at the clean and the dirty fixture. -/
theorem commitAndPush_noop_idempotent_witness :
    commitAndPush cfgW "m" ["a.md"] (fun _ => true) fsClean
      = (Except.ok (), fsClean, [Ev.addOp ["a.md"], Ev.statusOp]) ∧
    (commitAndPush cfgW "m" ["a.md"] (fun _ => true) fsDirty).2.1.commits
      = fsDirty.commits ++ [("m", stagedFiles cfgW ["a.md"] fsDirty)] ∧
    (writeFile cfgW fsClean "a.md" "same" (fun _ => true)).2.1.commits = fsClean.commits := by
  refine ⟨(commitAndPush_noop_idempotent cfgW "m" ["a.md"] (fun _ => true) fsClean).1 (by decide),
    ((commitAndPush_noop_idempotent cfgW "m" ["a.md"] (fun _ => true) fsDirty).2.1 (by decide)).1,
    ?_⟩
  exact ((commitAndPush_noop_idempotent cfgW "m" ["a.md"] (fun _ => true) fsClean).2.2
    "a.md" "same" (by decide) (by decide)).2.1

/-! ## C3 — destructive recovery determinism -/

/-- C3: whenever the fetch step fails or times out, or any git-level
error occurs during fetch/reset/clean, `syncVault` removes the whole
working copy and re-runs the cold clone, so (provided that clone
succeeds) the resulting working tree is exactly a fresh clone of the
remote branch tip — independent of whatever the old local content was,
never a mixture. -/
theorem sync_failure_destructive_recovery (cfg : VaultConfig) (remote : RemoteTip)
    (localFiles : List (FPath × String)) (o : SyncOutcome)
    (hfail : o.fetchOk = false ∨ o.resetOk = false ∨ o.cleanOk = false)
    (hclone : o.cloneOk = true) :
    (syncVault cfg remote localFiles o).1 = some (freshClone remote) ∧
    Ev.rmDir ∈ (syncVault cfg remote localFiles o).2 ∧
    Ev.cloneOp cfg.branch ∈ (syncVault cfg remote localFiles o).2 ∧
    ∀ localFiles', (syncVault cfg remote localFiles' o).1
      = (syncVault cfg remote localFiles o).1 := by
  obtain ⟨f, r, c, cl⟩ := o
  simp only at hfail hclone
  subst hclone
  cases f <;> cases r <;> cases c <;> simp_all [syncVault, freshClone]

/-- Witness for C3: a fetch timeout over a one-file remote tip and a
stale local tree. -/
theorem sync_failure_destructive_recovery_witness :
    (syncVault cfgW ⟨[(["a.md"], "tip")]⟩ [(["a.md"], "stale"), (["junk"], "x")]
        ⟨false, true, true, true⟩).1 = some (freshClone ⟨[(["a.md"], "tip")]⟩) ∧
    Ev.rmDir ∈ (syncVault cfgW ⟨[(["a.md"], "tip")]⟩ [(["a.md"], "stale"), (["junk"], "x")]
        ⟨false, true, true, true⟩).2 := by
  have h := sync_failure_destructive_recovery cfgW ⟨[(["a.md"], "tip")]⟩
    [(["a.md"], "stale"), (["junk"], "x")] ⟨false, true, true, true⟩
    (Or.inl rfl) rfl
  exact ⟨h.1, h.2.1⟩

/-! ## C6 — path containment (refuted: there is none) -/

/-- A replica beside which a file exists *outside* the configured root
`/vault` (at absolute path `/outside`). -/
def fsOutside : VaultFS :=
  ⟨[(["outside"], "secret"), (["vault", "a.md"], "alpha")], [["vault"]],
   [(["outside"], "secret"), (["vault", "a.md"], "alpha")], [], []⟩

/-- C6 counterexample: `readFile("../outside")` resolves outside the
working-copy root, yet the call performs the network sync, performs the
filesystem read at the escaped location, and *succeeds* with the outside
file's content — it does not fail with any path error, and `VErr` (the
code's error shapes) has no `InvalidPath` at all. -/
theorem readfile_escape_counterexample :
    resolvePath cfgW "../outside" = ["outside"] ∧
    (splitPath cfgW.vaultPath).isPrefixOf (resolvePath cfgW "../outside") = false ∧
    (readFile cfgW fsOutside "../outside").1 = Except.ok "secret" ∧
    Ev.fetchOp "origin" "main" ∈ (readFile cfgW fsOutside "../outside").2 ∧
    Ev.fsRead ["outside"] ∈ (readFile cfgW fsOutside "../outside").2 :=
  ⟨by decide, by decide, rfl, by decide, by decide⟩

/-- C6 amended: `readFile` applies no containment check.  Even when the
resolved path escapes the root, the call still runs the warm sync
(network) and the filesystem read at the resolved location, and its
outcome is decided purely by whether a file exists there — success with
its content, or the generic read error; never a path-containment
error. -/
theorem readfile_no_containment (cfg : VaultConfig) (fs : VaultFS) (rel : String)
    (_hesc : (splitPath cfg.vaultPath).isPrefixOf (resolvePath cfg rel) = false) :
    ((∃ c, (readFile cfg fs rel).1 = Except.ok c ∧
        lookupA fs.files (resolvePath cfg rel) = some c) ∨
      ((readFile cfg fs rel).1 = Except.error (VErr.readFailed rel) ∧
        lookupA fs.files (resolvePath cfg rel) = none)) ∧
    Ev.fetchOp "origin" cfg.branch ∈ (readFile cfg fs rel).2 ∧
    Ev.fsRead (resolvePath cfg rel) ∈ (readFile cfg fs rel).2 := by
  cases hl : lookupA fs.files (resolvePath cfg rel) with
  | some c =>
    refine ⟨Or.inl ⟨c, ?_, rfl⟩, ?_, ?_⟩ <;> simp [readFile, hl, warmSyncOps]
  | none =>
    refine ⟨Or.inr ⟨?_, rfl⟩, ?_, ?_⟩ <;> simp [readFile, hl, warmSyncOps]

/-- Witness for C6 amended, at the escaping input of the
counexample's scenario. -/
theorem readfile_no_containment_witness :
    Ev.fetchOp "origin" "main" ∈ (readFile cfgW fsOutside "../outside").2 ∧
    Ev.fsRead (resolvePath cfgW "../outside") ∈ (readFile cfgW fsOutside "../outside").2 := by
  have h := readfile_no_containment cfgW fsOutside "../outside" (by decide)
  exact ⟨h.2.1, h.2.2⟩

/-! ## C7 — single-path atomicity (refuted by `moveFile`) -/

/-- A replica holding one committed file under the root. -/
def fsV : VaultFS :=
  ⟨[(["vault", "a.md"], "alpha")], [["vault"]], [(["vault", "a.md"], "alpha")], [], []⟩

/-- C7 counterexample: a `moveFile` whose rename fails (missing source)
has already created the destination's parent directory, so the failed
call leaves a visible change in the working copy. -/
theorem movefile_partial_effect_counterexample :
    (moveFile cfgW fsV "missing.md" "newdir/dest.md" (fun _ => true)).1
      = Except.error (VErr.renameFailed "missing.md" "newdir/dest.md") ∧
    (moveFile cfgW fsV "missing.md" "newdir/dest.md" (fun _ => true)).2.1.dirs
      = [["vault"], ["vault", "newdir"]] ∧
    (moveFile cfgW fsV "missing.md" "newdir/dest.md" (fun _ => true)).2.1.dirs ≠ fsV.dirs :=
  ⟨rfl, by decide, by decide⟩

/-- C7 amended: every facade call returns its success value or one
structured error; a `deleteFile` that fails its guard (directory target
or missing path) leaves the replica unchanged; but a `moveFile` whose
rename fails has exactly one visible partial effect — the destination
parent directories it created beforehand — with files, HEAD, history and
remote untouched. -/
theorem single_path_failure_semantics (cfg : VaultConfig) (fs : VaultFS)
    (p src dst : String) (ok : Nat → Bool) :
    (resolvePath cfg p ∈ fs.dirs →
      (deleteFile cfg fs p ok).1 = Except.error (VErr.deleteFailed p) ∧
      (deleteFile cfg fs p ok).2.1 = fs) ∧
    (resolvePath cfg p ∉ fs.dirs → lookupA fs.files (resolvePath cfg p) = none →
      (deleteFile cfg fs p ok).1 = Except.error (VErr.deleteFailed p) ∧
      (deleteFile cfg fs p ok).2.1 = fs) ∧
    (lookupA fs.files (resolvePath cfg src) = none →
      (moveFile cfg fs src dst ok).1 = Except.error (VErr.renameFailed src dst) ∧
      (moveFile cfg fs src dst ok).2.1.files = fs.files ∧
      (moveFile cfg fs src dst ok).2.1.head = fs.head ∧
      (moveFile cfg fs src dst ok).2.1.commits = fs.commits ∧
      (moveFile cfg fs src dst ok).2.1.remote = fs.remote ∧
      (moveFile cfg fs src dst ok).2.1.dirs
        = addDirs fs.dirs (ancestors (resolvePath cfg dst).dropLast)) := by
  refine ⟨fun hdir => ?_, fun hdir hlook => ?_, fun hlook => ?_⟩
  · constructor <;> simp [deleteFile, hdir]
  · constructor <;> simp [deleteFile, hdir, hlook]
  · refine ⟨?_, ?_, ?_, ?_, ?_, ?_⟩ <;> simp [moveFile, hlook]

/-- Witness for C7 amended: delete of a directory, delete of a missing
path, and the failing move of the counterexample's scenario. -/
theorem single_path_failure_semantics_witness :
    (deleteFile cfgW fsV "" (fun _ => true)).2.1 = fsV ∧
    (deleteFile cfgW fsV "nope.md" (fun _ => true)).1
      = Except.error (VErr.deleteFailed "nope.md") ∧
    (moveFile cfgW fsV "missing.md" "newdir/dest.md" (fun _ => true)).2.1.files = fsV.files := by
  refine ⟨((single_path_failure_semantics cfgW fsV "" "x" "y" (fun _ => true)).1
      (by decide)).2,
    ((single_path_failure_semantics cfgW fsV "nope.md" "x" "y" (fun _ => true)).2.1
      (by decide) (by decide)).1,
    ((single_path_failure_semantics cfgW fsV "p" "missing.md" "newdir/dest.md"
      (fun _ => true)).2.2 (by decide)).2.1⟩

/-! ## C8 — deleteFile directory guard -/

/-- Unlinking a path removes it from the tree. -/
theorem lookupA_eraseA (l : List (FPath × String)) (k : FPath) :
    lookupA (eraseA l k) k = none := by
  induction l with
  | nil => rfl
  | cons kv t ih =>
    obtain ⟨k', v'⟩ := kv
    by_cases hk : k' = k
    · simpa [eraseA, hk] using ih
    · simpa [eraseA, lookupA, hk] using ih

/-- A present path is among the keys. -/
theorem mem_keysA_of_lookupA (l : List (FPath × String)) (k : FPath) (v : String)
    (h : lookupA l k = some v) : k ∈ keysA l := by
  induction l with
  | nil => simp [lookupA] at h
  | cons kv t ih =>
    obtain ⟨k', v'⟩ := kv
    by_cases hk : k' = k
    · simp [keysA, hk]
    · simp [lookupA, hk] at h
      simp [keysA]
      exact Or.inr (by simpa [keysA] using ih h)

/-- `commitAndPush` never touches the working tree or the directory
set — it only stages, commits and pushes. -/
theorem commitAndPush_preserves_tree (cfg : VaultConfig) (msg : String) (aff : List String)
    (ok : Nat → Bool) (fs : VaultFS) :
    (commitAndPush cfg msg aff ok fs).2.1.files = fs.files ∧
    (commitAndPush cfg msg aff ok fs).2.1.dirs = fs.dirs := by
  by_cases hch : (changedPaths fs.files fs.head).isEmpty = true
  · constructor <;> simp [commitAndPush, hch]
  · cases hp : (pushWithRetry ok 3).1 <;> constructor <;> simp [commitAndPush, hch, hp]

/-- C8: when the path names a directory, `deleteFile` fails with the
delete error, leaves the replica untouched, unlinks nothing and neither
commits nor pushes; when it names an existing (tracked) regular file,
`deleteFile` unlinks it and then runs commit+push for exactly that
path. -/
theorem deletefile_directory_guard (cfg : VaultConfig) (fs : VaultFS) (p : String)
    (ok : Nat → Bool) :
    (resolvePath cfg p ∈ fs.dirs →
      (deleteFile cfg fs p ok).1 = Except.error (VErr.deleteFailed p) ∧
      (deleteFile cfg fs p ok).2.1 = fs ∧
      (∀ q, Ev.fsUnlink q ∉ (deleteFile cfg fs p ok).2.2) ∧
      (∀ m, Ev.commitOp m ∉ (deleteFile cfg fs p ok).2.2) ∧
      Ev.pushOp ∉ (deleteFile cfg fs p ok).2.2) ∧
    (∀ c hc, resolvePath cfg p ∉ fs.dirs →
      lookupA fs.files (resolvePath cfg p) = some c →
      lookupA fs.head (resolvePath cfg p) = some hc →
      (deleteFile cfg fs p ok).2.1.files = eraseA fs.files (resolvePath cfg p) ∧
      (deleteFile cfg fs p ok).2.1.commits
        = fs.commits ++ [("Delete file: " ++ p, [resolvePath cfg p])] ∧
      Ev.fsUnlink (resolvePath cfg p) ∈ (deleteFile cfg fs p ok).2.2 ∧
      Ev.commitOp ("Delete file: " ++ p) ∈ (deleteFile cfg fs p ok).2.2 ∧
      Ev.pushOp ∈ (deleteFile cfg fs p ok).2.2) := by
  constructor
  · intro hdir
    refine ⟨?_, ?_, ?_, ?_, ?_⟩ <;> simp [deleteFile, hdir, warmSyncOps]
  · intro c hc hdir hfile hhead
    set full := resolvePath cfg p with hfull
    have hfs1files :
        ({ fs with files := eraseA fs.files full } : VaultFS).files = eraseA fs.files full := rfl
    have hmem : full ∈ changedPaths (eraseA fs.files full) fs.head := by
      have hkeys : full ∈ (keysA (eraseA fs.files full) ++ keysA fs.head).dedup := by
        rw [List.mem_dedup]
        exact List.mem_append_right _ (mem_keysA_of_lookupA fs.head full hc hhead)
      refine List.mem_filter.mpr ⟨hkeys, ?_⟩
      rw [lookupA_eraseA, hhead]
      simp
    have hch1 : (changedPaths (eraseA fs.files full) fs.head).isEmpty = false := by
      rcases he : changedPaths (eraseA fs.files full) fs.head with _ | ⟨a, t⟩
      · rw [he] at hmem; cases hmem
      · rfl
    have hstaged : stagedFiles cfg [p] ({ fs with files := eraseA fs.files full } : VaultFS)
        = [full] := by
      simp only [stagedFiles]
      rw [if_neg (by simp)]
      simp only [List.map, hfull, hfs1files]
      rw [List.filter_cons]
      simp [hmem]
    refine ⟨?_, ?_, ?_, ?_, ?_⟩
    · simp only [deleteFile, if_neg hdir, hfile]
      rw [(commitAndPush_preserves_tree cfg ("Delete file: " ++ p) [p] ok _).1]
    · simp only [deleteFile, if_neg hdir, hfile]
      rw [commitAndPush_commits cfg ("Delete file: " ++ p) [p] ok _ hch1, hstaged]
    · simp only [deleteFile, if_neg hdir, hfile]
      simp
    · simp only [deleteFile, if_neg hdir, hfile]
      rw [commitAndPush_trace cfg ("Delete file: " ++ p) [p] ok _ hch1]
      simp
    · simp only [deleteFile, if_neg hdir, hfile]
      rw [commitAndPush_trace cfg ("Delete file: " ++ p) [p] ok _ hch1]
      refine List.mem_append_right _ (List.mem_append_right _ ?_)
      unfold pushWithRetry
      exact pushAttemptsAux_mem_push ok 3 1 3 (by omega)

/-- Witness for C8: deleting the root directory is refused; deleting the
tracked file `a.md` unlinks and commits it. -/
theorem deletefile_directory_guard_witness :
    (deleteFile cfgW fsV "" (fun _ => true)).1 = Except.error (VErr.deleteFailed "") ∧
    (deleteFile cfgW fsV "a.md" (fun _ => true)).2.1.files
      = eraseA fsV.files (resolvePath cfgW "a.md") ∧
    (deleteFile cfgW fsV "a.md" (fun _ => true)).2.1.commits
      = fsV.commits ++ [("Delete file: " ++ "a.md", [resolvePath cfgW "a.md"])] := by
  refine ⟨((deletefile_directory_guard cfgW fsV "" (fun _ => true)).1 (by decide)).1, ?_, ?_⟩
  · exact ((deletefile_directory_guard cfgW fsV "a.md" (fun _ => true)).2
      "alpha" "alpha" (by decide) (by decide) (by decide)).1
  · exact ((deletefile_directory_guard cfgW fsV "a.md" (fun _ => true)).2
      "alpha" "alpha" (by decide) (by decide) (by decide)).2.1

/-! ## C9 — listFiles recursion default and metadata skipping -/

mutual

/-- With `recursive` unspecified, an entry walks exactly as with
`recursive: true`. -/
theorem walkEntry_default_recursive (idir : Bool) (ft : Option (List String)) :
    ∀ (rel : List String) (t : FTree),
      walkEntry ⟨idir, ft, none⟩ rel t = walkEntry ⟨idir, ft, some true⟩ rel t
  | _, FTree.file _ => rfl
  | rel, FTree.dir n cs => by
    by_cases hn : n = ".git" ∨ n = ".obsidian"
    · simp [walkEntry, hn]
    · simp only [walkEntry, if_neg hn]
      rw [walkList_default_recursive idir ft (rel ++ [n]) cs]
      simp

/-- With `recursive` unspecified, a directory listing walks exactly as
with `recursive: true`. -/
theorem walkList_default_recursive (idir : Bool) (ft : Option (List String)) :
    ∀ (rel : List String) (ts : FTreeList),
      walkList ⟨idir, ft, none⟩ rel ts = walkList ⟨idir, ft, some true⟩ rel ts
  | _, FTreeList.nil => rfl
  | rel, FTreeList.cons t ts => by
    simp only [walkList]
    rw [walkEntry_default_recursive idir ft rel t, walkList_default_recursive idir ft rel ts]

end

/-- With `recursive: false`, the walk is the single-level listing. -/
theorem walkList_shallow (idir : Bool) (ft : Option (List String)) :
    ∀ (rel : List String) (ts : FTreeList),
      walkList ⟨idir, ft, some false⟩ rel ts = shallowList ⟨idir, ft, some false⟩ rel ts
  | _, FTreeList.nil => rfl
  | rel, FTreeList.cons t ts => by
    have ih := walkList_shallow idir ft rel ts
    cases t with
    | file n => simp only [walkList, walkEntry, shallowList]; rw [ih]
    | dir n cs =>
      by_cases hn : n = ".git" ∨ n = ".obsidian"
      · simp only [walkList, walkEntry, shallowList, if_pos hn]
        rw [ih]
      · simp only [walkList, walkEntry, shallowList, if_neg hn]
        rw [ih]
        simp

mutual

/-- Every path an entry contributes extends the current directory by
segments that are never `.git` or `.obsidian`. -/
theorem walkEntry_skips (opts : ListOptions) :
    ∀ (rel : List String) (t : FTree) (p : List String), p ∈ walkEntry opts rel t →
      ∃ suffix, p = rel ++ suffix ∧ ".git" ∉ suffix ∧ ".obsidian" ∉ suffix
  | rel, FTree.file n, p => by
    intro hp
    by_cases hn : n = ".git" ∨ n = ".obsidian"
    · simp [walkEntry, hn] at hp
    · have hp' : p = rel ++ [n] := by
        simp only [walkEntry, if_neg hn] at hp
        rcases hft : opts.fileTypes with _ | l
        · rw [hft] at hp; simpa using hp
        · rw [hft] at hp
          rcases hc : decide (l ≠ [] ∧ extNoDot n ∉ l) with _ | _
          · simp only [if_neg (of_decide_eq_false hc)] at hp
            simpa using hp
          · simp only [if_pos (of_decide_eq_true hc)] at hp
            cases hp
      push_neg at hn
      exact ⟨[n], hp', by simpa using fun h => hn.1 h.symm,
        by simpa using fun h => hn.2 h.symm⟩
  | rel, FTree.dir n cs, p => by
    intro hp
    by_cases hn : n = ".git" ∨ n = ".obsidian"
    · simp [walkEntry, hn] at hp
    · push_neg at hn
      simp only [walkEntry, if_neg (by tauto : ¬(n = ".git" ∨ n = ".obsidian"))] at hp
      rcases List.mem_append.mp hp with hp | hp
      · have hp' : p = rel ++ [n] := by
          rcases hi : opts.includeDirectories with _ | _ <;> rw [hi] at hp
          · simp at hp
          · simpa using hp
        exact ⟨[n], hp', by simpa using fun h => hn.1 h.symm,
          by simpa using fun h => hn.2 h.symm⟩
      · by_cases hr : opts.recursive = some false
        · simp [hr] at hp
        · rw [if_pos hr] at hp
          obtain ⟨s', hps, hg, ho⟩ := walkList_skips opts (rel ++ [n]) cs p hp
          refine ⟨n :: s', by simpa using hps, ?_, ?_⟩
          · simpa using ⟨fun h => hn.1 h.symm, hg⟩
          · simpa using ⟨fun h => hn.2 h.symm, ho⟩

/-- Every path a listing contributes extends the current directory by
segments that are never `.git` or `.obsidian`. -/
theorem walkList_skips (opts : ListOptions) :
    ∀ (rel : List String) (ts : FTreeList) (p : List String), p ∈ walkList opts rel ts →
      ∃ suffix, p = rel ++ suffix ∧ ".git" ∉ suffix ∧ ".obsidian" ∉ suffix
  | rel, FTreeList.cons t ts, p => by
    intro hp
    rcases List.mem_append.mp hp with hp | hp
    · exact walkEntry_skips opts rel t p hp
    · exact walkList_skips opts rel ts p hp
  | _, FTreeList.nil, p => by
    intro hp
    cases hp

end

/-- C9: when `options.recursive` is unspecified the walk is fully
recursive (identical to `recursive: true`); only an explicit
`recursive: false` yields the single-level listing; and in every mode,
at every depth, entries named `.git` and `.obsidian` are skipped — no
produced path contains either segment below the listing root. -/
theorem listfiles_recursion_default :
    (∀ (idir : Bool) (ft : Option (List String)) (rel : List String) (ts : FTreeList),
      walkList ⟨idir, ft, none⟩ rel ts = walkList ⟨idir, ft, some true⟩ rel ts) ∧
    (∀ (idir : Bool) (ft : Option (List String)) (rel : List String) (ts : FTreeList),
      walkList ⟨idir, ft, some false⟩ rel ts = shallowList ⟨idir, ft, some false⟩ rel ts) ∧
    (∀ (opts : ListOptions) (rel : List String) (ts : FTreeList) (p : List String),
      p ∈ walkList opts rel ts →
      ∃ suffix, p = rel ++ suffix ∧ ".git" ∉ suffix ∧ ".obsidian" ∉ suffix) :=
  ⟨fun idir ft rel ts => walkList_default_recursive idir ft rel ts,
   fun idir ft rel ts => walkList_shallow idir ft rel ts,
   fun opts rel ts p hp => walkList_skips opts rel ts p hp⟩

/-- A small vault tree: a file, a `.git` directory, a subdirectory. -/
def demoTree : FTreeList :=
  FTreeList.cons (FTree.file "a.md")
    (FTreeList.cons (FTree.dir ".git" (FTreeList.cons (FTree.file "cfg") FTreeList.nil))
      (FTreeList.cons (FTree.dir "notes" (FTreeList.cons (FTree.file "b.md") FTreeList.nil))
        FTreeList.nil))

/-- Witness for C9 on the demo tree: the default walk descends into
`notes` (it equals the `recursive: true` walk), the `recursive: false`
walk is the shallow listing, and the produced deep path carries no
`.git`/`.obsidian` segment. -/
theorem listfiles_recursion_default_witness :
    walkList ⟨false, none, none⟩ [] demoTree = walkList ⟨false, none, some true⟩ [] demoTree ∧
    walkList ⟨false, none, some false⟩ [] demoTree
      = shallowList ⟨false, none, some false⟩ [] demoTree ∧
    ∃ suffix, ["notes", "b.md"] = [] ++ suffix ∧ ".git" ∉ suffix ∧ ".obsidian" ∉ suffix := by
  refine ⟨listfiles_recursion_default.1 false none [] demoTree,
    listfiles_recursion_default.2.1 false none [] demoTree,
    listfiles_recursion_default.2.2 ⟨false, none, none⟩ [] demoTree ["notes", "b.md"] ?_⟩
  decide

/-! ## C1 — single-flight (refuted: every call syncs) -/

/-- Replacing the queue at index `i` changes the summed counts by the
difference of the two queues' counts. -/
theorem map_count_sum_set (a : Ev) :
    ∀ (qs : List (List Ev)) (i : Nat) (q' q : List Ev), qs.get? i = some q →
      ((qs.set i q').map (fun l => l.count a)).sum + q.count a
        = (qs.map (fun l => l.count a)).sum + q'.count a := by
  intro qs
  induction qs with
  | nil => intro i q' q h; simp at h
  | cons hd tl ih =>
    intro i q' q h
    cases i with
    | zero =>
      simp only [List.get?] at h
      cases h
      simp [List.set]
      omega
    | succ j =>
      simp only [List.get?] at h
      have := ih j q' q h
      simp only [List.set, List.map, List.sum_cons]
      omega

/-- All queues empty means the summed counts vanish. -/
theorem map_count_sum_nil (a : Ev) :
    ∀ qs : List (List Ev), (∀ q ∈ qs, q = []) → (qs.map (fun l => l.count a)).sum = 0 := by
  intro qs
  induction qs with
  | nil => intro _; simp
  | cons hd tl ih =>
    intro h
    have hhd : hd = [] := h hd (by simp)
    simp [hhd, ih (fun q hq => h q (by simp [hq]))]

/-- Counting an event over any interleaving gives the sum of its counts
over the interleaved queues: scheduling neither loses nor merges
operations. -/
theorem interleaving_count (a : Ev) :
    ∀ (qs : List (List Ev)) (t : List Ev), Interleaving qs t →
      t.count a = (qs.map (fun l => l.count a)).sum := by
  intro qs t h
  induction h with
  | done qs hq => simp [map_count_sum_nil a qs hq]
  | step qs i x rest t hget _ ih =>
    have hsum := map_count_sum_set a qs i rest (x :: rest) hget
    simp only [List.count_cons] at hsum ⊢
    rw [ih]
    omega

/-- An extra exhausted queue does not change the interleavings. -/
theorem interleaving_nil_cons :
    ∀ (qs : List (List Ev)) (t : List Ev), Interleaving qs t → Interleaving ([] :: qs) t := by
  intro qs t h
  induction h with
  | done qs hq =>
    refine Interleaving.done _ (fun q hmem => ?_)
    rcases List.mem_cons.mp hmem with h1 | h1
    · exact h1
    · exact hq q h1
  | step qs i x rest t hget _ ih =>
    exact Interleaving.step ([] :: qs) (i + 1) x rest t (by simpa using hget) (by simpa using ih)

/-- Running one queue to completion, then an interleaving of the rest,
is an interleaving of all of them. -/
theorem interleaving_cons :
    ∀ (q : List Ev) (qs : List (List Ev)) (t : List Ev),
      Interleaving qs t → Interleaving (q :: qs) (q ++ t) := by
  intro q
  induction q with
  | nil => intro qs t h; simpa using interleaving_nil_cons qs t h
  | cons x q' ih =>
    intro qs t h
    exact Interleaving.step ((x :: q') :: qs) 0 x q' (q' ++ t) rfl (ih qs t h)

/-- The fully sequential schedule is an interleaving. -/
theorem interleaving_flatten : ∀ qs : List (List Ev), Interleaving qs qs.flatten := by
  intro qs
  induction qs with
  | nil => exact Interleaving.done [] (by intro q hq; cases hq)
  | cons q qs ih => exact interleaving_cons q qs qs.flatten ih

/-- The configuration of the repository's own concurrency test
(`git-vault-manager.concurrency.test.ts`). -/
def testConfig : VaultConfig :=
  ⟨"https://github.com/example/vault.git", "main", "token", "./vault-local"⟩

/-- The five concurrent `readFile` calls of that test, against an
existing replica whose syncs succeed. -/
def concurrentReadQueues : List (List Ev) :=
  ["a.md", "b.md", "c.md", "d.md", "e.md"].map (readFileCallOps testConfig)

/-- C1 is false of the code (`code_bug`): `GitVaultManager` has no
single-flight state whatsoever — its only field is the immutable config
— so each of the five concurrent `readFile` calls runs its own
`initialize()`/`syncVault()`, and *every* interleaving of the five calls
performs exactly 5 fetch (and reset, and clean) operations, never the 1
the spec and the repository's own test
(`expect(mockFetch).toHaveBeenCalledTimes(1)`) demand. -/
theorem concurrent_reads_sync_five_times (t : List Ev)
    (h : Interleaving concurrentReadQueues t) :
    t.count (Ev.fetchOp "origin" "main") = 5 ∧
    t.count (Ev.fetchOp "origin" "main") ≠ 1 := by
  have hc := interleaving_count (Ev.fetchOp "origin" "main") concurrentReadQueues t h
  constructor
  · rw [hc]; decide
  · rw [hc]; decide

/-- Witness for C1 at the sequential interleaving of the five calls. -/
theorem concurrent_reads_sync_five_times_witness :
    (concurrentReadQueues.flatten).count (Ev.fetchOp "origin" "main") = 5 :=
  (concurrent_reads_sync_five_times concurrentReadQueues.flatten
    (interleaving_flatten concurrentReadQueues)).1

/-! ## C2 — serialized mutation (refuted: commits can mix) -/

/-- A step never changes a task's remaining program (only `saw`). -/
theorem doStep_prog (t : MTask) (st : MState) (s : MStep) :
    (doStep t st s).1.prog = t.prog := by
  cases s
  · rfl
  · simp only [doStep]; split <;> rfl
  · rfl
  · simp only [doStep]; split <;> rfl
  · rfl

/-- C2 counterexample: interleaving two `writeFile` calls (for `a.md`
and `b.md`) as
write A, write B, stage A, stage B, status A, commit A
makes the *single* commit of mutation A contain the files of *both*
logical mutations — the code has no coordinator queue, so nothing
prevents B's staged path from being swept into A's commit. -/
theorem concurrent_writes_mix_commits :
    (run2 [true, false, true, false, true, true]
        (mkWriteTask "a.md") (mkWriteTask "b.md") ⟨[], [], []⟩).2.2.1.commits
      = [("Update file: a.md", ["a.md", "b.md"])] := by
  decide

/-- Each side of any schedule performs a prefix of its own program: the
interleaving can mix commits, but never reorders one call's own steps. -/
theorem run2_proj : ∀ (sched : List Bool) (ta tb : MTask) (st : MState),
    (∃ k, taskEvents true (run2 sched ta tb st).2.2.2 = ta.prog.take k) ∧
    (∃ k, taskEvents false (run2 sched ta tb st).2.2.2 = tb.prog.take k) := by
  intro sched
  induction sched with
  | nil =>
    intro ta tb st
    exact ⟨⟨0, by simp [run2, taskEvents]⟩, ⟨0, by simp [run2, taskEvents]⟩⟩
  | cons c rest ih =>
    intro ta tb st
    cases c
    · rcases hprog : tb.prog with _ | ⟨s, ss⟩
      · have h := ih ta tb st
        rw [hprog] at h
        simp only [run2, Bool.false_eq_true, if_false, hprog]
        exact h
      · have h := ih ta (doStep { tb with prog := ss } st s).1
          (doStep { tb with prog := ss } st s).2
        simp only [run2, Bool.false_eq_true, if_false, hprog]
        constructor
        · obtain ⟨k, hk⟩ := h.1
          exact ⟨k, by simpa [taskEvents] using hk⟩
        · obtain ⟨k, hk⟩ := h.2
          refine ⟨k + 1, ?_⟩
          have hpr : (doStep { tb with prog := ss } st s).1.prog = ss :=
            doStep_prog { tb with prog := ss } st s
          simp only [taskEvents, List.filter, List.map] at hk ⊢
          simp only [hprog, List.take]
          rw [hk, hpr]
    · rcases hprog : ta.prog with _ | ⟨s, ss⟩
      · have h := ih ta tb st
        rw [hprog] at h
        simp only [run2, if_true, hprog]
        exact h
      · have h := ih (doStep { ta with prog := ss } st s).1 tb
          (doStep { ta with prog := ss } st s).2
        simp only [run2, if_true, hprog]
        constructor
        · obtain ⟨k, hk⟩ := h.1
          refine ⟨k + 1, ?_⟩
          have hpr : (doStep { ta with prog := ss } st s).1.prog = ss :=
            doStep_prog { ta with prog := ss } st s
          simp only [taskEvents, List.filter, List.map] at hk ⊢
          simp only [hprog, List.take]
          rw [hk, hpr]
        · obtain ⟨k, hk⟩ := h.2
          exact ⟨k, by simpa [taskEvents] using hk⟩

/-- C2 amended: commit+push sequences are not serialized — the
counterexample interleaving yields one commit containing both mutations'
files — but each call still executes its own steps in program order
(every trace projection is a prefix of `writeProg`, whose write precedes
its commit), and non-interleaved execution produces one commit per
mutation, each containing only its own file, in execution order. -/
theorem writefile_commit_program_order :
    (∀ (sched : List Bool) (pa pb : String), ∃ k,
      taskEvents true (run2 sched (mkWriteTask pa) (mkWriteTask pb) ⟨[], [], []⟩).2.2.2
        = writeProg.take k) ∧
    (∀ (sched : List Bool) (pa pb : String), ∃ k,
      taskEvents false (run2 sched (mkWriteTask pa) (mkWriteTask pb) ⟨[], [], []⟩).2.2.2
        = writeProg.take k) ∧
    (run2 [true, true, true, true, true, false, false, false, false, false]
        (mkWriteTask "a.md") (mkWriteTask "b.md") ⟨[], [], []⟩).2.2.1.commits
      = [("Update file: a.md", ["a.md"]), ("Update file: b.md", ["b.md"])] :=
  ⟨fun sched pa pb => (run2_proj sched (mkWriteTask pa) (mkWriteTask pb) ⟨[], [], []⟩).1,
   fun sched pa pb => (run2_proj sched (mkWriteTask pa) (mkWriteTask pb) ⟨[], [], []⟩).2,
   by decide⟩

end ObsidianVault
